import Mathlib

/-!
Shallow embedding of the `visvasity/kv` repository: the transactional
key-value contract (`db.go`), the scoped-execution helpers (`util.go`),
the bulk operations Backup / ValidateBackup / Restore / Clear
(`kvutil`), and the `PrefixRange` / `prefixEnd` helpers.

Keys and values are byte strings, modelled as `List Nat` with bytes
below 256.  The store contents visible through a Snapshot or a
Transaction are modelled as an association list that is strictly
sorted by key (the reference backend obeying the `kv.Database`
contract documented in `db.go`).  Machine integers (`int64`,
`uint64`) are modelled as `Nat`/`Int` with explicit `% 2 ^ w`
arithmetic where overflow matters.
-/

namespace KV

abbrev Key := List Nat

abbrev Value := List Nat

/-- Store contents: association list of key/value pairs, kept strictly
sorted in ascending key order by the reference backend. -/
abbrev Store := List (Key × Value)

/-- Go string comparison `<` on byte strings (lexicographic, a proper
prefix is smaller). -/
def keyLt : Key → Key → Bool
  | _, [] => false
  | [], _ :: _ => true
  | a :: as, b :: bs => a < b || (a == b && keyLt as bs)

/-- Go string comparison `<=` on byte strings. -/
def keyLe (x y : Key) : Bool := keyLt x y || x == y

/-- `hasPref p k` holds when the byte string `p` is a byte-prefix of `k`. -/
def hasPref : Key → Key → Bool
  | [], _ => true
  | _ :: _, [] => false
  | a :: as, b :: bs => a == b && hasPref as bs

/-- All entries of a byte string are actual bytes (below 256). -/
def okBytes (l : List Nat) : Bool := l.all (fun b => b < 256)

/-- Every key of the store is `keyLt`-below every later key
(strict ascending order, hence no duplicate keys). -/
def pairwiseLt : Store → Bool
  | [] => true
  | a :: rest => rest.all (fun b => keyLt a.1 b.1) && pairwiseLt rest

/-- Well-formed store contents: strictly sorted by key, all keys
non-empty, and all key and value entries are bytes. -/
def validStore (s : Store) : Bool :=
  pairwiseLt s &&
    s.all (fun kv => !(kv.1 == []) && okBytes kv.1 && okBytes kv.2)

/-- Errors surfaced by the contract of `db.go` and by the bulk
operations (`os.ErrInvalid`, `os.ErrNotExist`, the checksum error of
`nextBackupItem`, `io.EOF`, commit / transaction-creation failures
injected by the environment, and a fuel marker that adequate fuel
makes unreachable). -/
inductive Err where
  | invalid
  | notFound
  | checksum
  | eof
  | commitFail
  | newTxFail
  | outOfFuel
deriving DecidableEq

/-- Reference backend `Set`: create or overwrite, keeping the list
sorted (models the `kv.Setter` contract from `db.go`). -/
def storeSet : Store → Key → Value → Store
  | [], k, v => [(k, v)]
  | (k0, v0) :: rest, k, v =>
    if keyLt k k0 then (k, v) :: (k0, v0) :: rest
    else if k = k0 then (k, v) :: rest
    else (k0, v0) :: storeSet rest k v

/-- `kv.Setter.Set`: fails with `os.ErrInvalid` on the empty key,
otherwise creates or overwrites. -/
def storeSetE (s : Store) (k : Key) (v : Value) : Except Err Store :=
  if k = [] then .error .invalid else .ok (storeSet s k v)

/-- Reference backend `Delete`: drop the entry with the given key. -/
def storeDelete (s : Store) (k : Key) : Store :=
  s.filter (fun kv => !(kv.1 == k))

/-- `kv.Deleter.Delete`: `os.ErrInvalid` on the empty key,
`os.ErrNotExist` when the key is absent. -/
def storeDeleteE (s : Store) (k : Key) : Except Err Store :=
  if k = [] then .error .invalid
  else if s.all (fun kv => !(kv.1 == k)) then .error .notFound
  else .ok (storeDelete s k)

/-- `kv.Getter.Get`: `os.ErrInvalid` on the empty key,
`os.ErrNotExist` when the key is absent. -/
def storeGet (s : Store) (k : Key) : Except Err Value :=
  if k = [] then .error .invalid
  else
    match s.find? (fun kv => kv.1 == k) with
    | some kv => .ok kv.2
    | none => .error .notFound

/-- `kv.Ranger.Ascend` over the half-open range `[beg, e)`; an empty
`beg` means from the smallest key and an empty `e` means past the
largest key.  On a sorted store the filtered list is already in
ascending key order. -/
def ascend (s : Store) (beg e : Key) : List (Key × Value) :=
  s.filter (fun kv => (beg == [] || keyLe beg kv.1) && (e == [] || keyLt kv.1 e))

/-! CRC64 with the ISO polynomial, as in Go's `hash/crc64` package:
the reversed polynomial `0xD800000000000000`, a 256-entry table built
by `makeTable`, and `update` which inverts the running checksum before
and after folding the data bytes through the table. -/

/-- The reversed ISO polynomial `crc64.ISO`. -/
def ISO : Nat := 0xD800000000000000

/-- One iteration of the inner loop of `crc64.makeTable`. -/
def crcTabStep (crc : Nat) : Nat :=
  if crc % 2 = 1 then (crc / 2) ^^^ ISO else crc / 2

/-- `crc64.makeTable(ISO)[i]`: eight table-building steps applied to `i`. -/
def crcTab (i : Nat) : Nat :=
  crcTabStep (crcTabStep (crcTabStep (crcTabStep
    (crcTabStep (crcTabStep (crcTabStep (crcTabStep i)))))))

def mask64 : Nat := 2 ^ 64 - 1

/-- 64-bit complement `^crc`. -/
def not64 (x : Nat) : Nat := x ^^^ mask64

/-- One byte of `crc64.update`: `crc = tab[byte(crc)^b] ^ (crc >> 8)`. -/
def crcStep (crc b : Nat) : Nat := crcTab ((crc % 256) ^^^ b) ^^^ (crc / 256)

/-- `crc64.update(crc, tab, p)`. -/
def crcUpdate (crc : Nat) (p : List Nat) : Nat :=
  not64 (p.foldl crcStep (not64 crc))

/-- The checksum `Backup` and `nextBackupItem` compute: a fresh digest,
`WriteString(key)` then `Write(value)`, then `Sum64`. -/
def checksumKV (k : Key) (v : Value) : Nat := crcUpdate (crcUpdate 0 k) v

/-- Position `h` holds the unique `i < 256` whose table entry
`crcTab i` has high byte `h`; used to show the high bytes of the table
entries are pairwise distinct. -/
def crcTabHighInv : List Nat :=
  [0, 1, 3, 2, 7, 6, 4, 5, 14, 15, 13, 12, 9, 8, 10, 11, 28, 29, 31, 30, 27,
   26, 24, 25, 18, 19, 17, 16, 21, 20, 22, 23, 56, 57, 59, 58, 63, 62, 60, 61,
   54, 55, 53, 52, 49, 48, 50, 51, 36, 37, 39, 38, 35, 34, 32, 33, 42, 43, 41,
   40, 45, 44, 46, 47, 113, 112, 114, 115, 118, 119, 117, 116, 127, 126, 124,
   125, 120, 121, 123, 122, 109, 108, 110, 111, 106, 107, 105, 104, 99, 98,
   96, 97, 100, 101, 103, 102, 73, 72, 74, 75, 78, 79, 77, 76, 71, 70, 68, 69,
   64, 65, 67, 66, 85, 84, 86, 87, 82, 83, 81, 80, 91, 90, 88, 89, 92, 93, 95,
   94, 227, 226, 224, 225, 228, 229, 231, 230, 237, 236, 238, 239, 234, 235,
   233, 232, 255, 254, 252, 253, 248, 249, 251, 250, 241, 240, 242, 243, 246,
   247, 245, 244, 219, 218, 216, 217, 220, 221, 223, 222, 213, 212, 214, 215,
   210, 211, 209, 208, 199, 198, 196, 197, 192, 193, 195, 194, 201, 200, 202,
   203, 206, 207, 205, 204, 146, 147, 145, 144, 149, 148, 150, 151, 156, 157,
   159, 158, 155, 154, 152, 153, 142, 143, 141, 140, 137, 136, 138, 139, 128,
   129, 131, 130, 135, 134, 132, 133, 170, 171, 169, 168, 173, 172, 174, 175,
   164, 165, 167, 166, 163, 162, 160, 161, 182, 183, 181, 180, 177, 176, 178,
   179, 184, 185, 187, 186, 191, 190, 188, 189]

/-! The backup stream.  The gob encoding frames each record as a key,
a byte-slice value and a `uint64` checksum; the stream is modelled as
the list of decoded records, with clean end-of-stream at the end of
the list. -/

/-- One backup record as encoded by `Backup` and decoded by
`nextBackupItem`. -/
structure Rec where
  key : Key
  value : Value
  sum : Nat
deriving DecidableEq

/-- The record `Backup` emits for one key/value pair. -/
def mkRec (k : Key) (v : Value) : Rec := ⟨k, v, checksumKV k v⟩

/-- `Backup(ctx, db, w)`: one snapshot, `Ascend` over the whole key
space, each pair emitted with its crc64-ISO checksum over key bytes
followed by value bytes. -/
def Backup (s : Store) : List Rec :=
  (ascend s [] []).map (fun kv => mkRec kv.1 kv.2)

/-- `nextBackupItem`: decode the next record (end of list is `io.EOF`),
recompute the crc64 over key and value, and fail with the checksum
error when it differs from the stored checksum. -/
def nextBackupItem : List Rec → Except Err ((Key × Value) × List Rec)
  | [] => .error .eof
  | r :: rest =>
    if r.sum = checksumKV r.key r.value then .ok ((r.key, r.value), rest)
    else .error .checksum

/-- The loop of `ValidateBackup`, instrumented with the number of
records that validated before the loop ended: `(n, none)` means `n`
records validated and clean end-of-stream was reached, `(n, some e)`
means the record after the first `n` failed with `e`. -/
def validateCount : List Rec → Nat × Option Err
  | [] => (0, none)
  | r :: rest =>
    if r.sum = checksumKV r.key r.value then
      ((validateCount rest).1 + 1, (validateCount rest).2)
    else (0, some .checksum)

/-- `ValidateBackup(ctx, r)`: `none` is success (clean end-of-stream). -/
def ValidateBackup (recs : List Rec) : Option Err := (validateCount recs).2

/-! Bulk transactional operations.  The environment injects the
failures the backend may produce on `NewTransaction` and `Commit`
(indexed by how many transactions were opened, respectively how many
commits succeeded, so far); `Set` and `Delete` failures arise from the
documented contract (empty key, missing key).  Each loop iteration of
the Go code opens a transaction whose buffered writes are rolled back
by `defer tx.Rollback` unless `Commit` succeeds. -/

structure Env where
  newTxOk : Nat → Bool
  commitOk : Nat → Bool

/-- Environment in which every `NewTransaction` and every `Commit`
succeeds. -/
def allOk : Env := ⟨fun _ => true, fun _ => true⟩

/-- Environment in which every `NewTransaction` succeeds, the first
`q` commits succeed and every later commit fails. -/
def envFailAt (q : Nat) : Env := ⟨fun _ => true, fun i => decide (i < q)⟩

/-- Observable outcome of `Restore` / `Clear`: the final store, the
number of transactions opened, the record (or deletion) counts of the
chunks whose commit succeeded, in order, and the reported error. -/
structure BulkOut where
  store : Store
  opened : Nat
  committed : List Nat
  err : Option Err
deriving DecidableEq

/-- Outcome of the inner record loop of one `Restore` chunk: the
transaction's buffered store, the rest of the stream, the number of
records applied, the `done` flag (end-of-stream reached) and the
error that aborted the chunk, if any. -/
structure RChunk where
  pending : Store
  rem : List Rec
  n : Nat
  done : Bool
  err : Option Err
deriving DecidableEq

/-- The inner `for i := 0; i < maxPerTx; i++` loop of one `Restore`
chunk: decode records with `nextBackupItem` and buffer them with
`tx.Set`. -/
def restoreChunk (pending : Store) (recs : List Rec) (m : Nat) : RChunk :=
  if m = 0 then ⟨pending, recs, 0, false, none⟩
  else
    match recs with
    | [] => ⟨pending, [], 0, true, none⟩
    | r :: rest =>
      if r.sum = checksumKV r.key r.value then
        match storeSetE pending r.key r.value with
        | .ok p =>
          let c := restoreChunk p rest (m - 1)
          ⟨c.pending, c.rem, c.n + 1, c.done, c.err⟩
        | .error e => ⟨pending, rest, 0, false, some e⟩
      else ⟨pending, rest, 0, false, some .checksum⟩

/-- The `for done := false; !done` loop of `Restore`.  One unit of
fuel per iteration; `Restore` supplies `recs.length + 1` fuel, which
suffices whenever `1 ≤ m`. -/
def restoreLoop (env : Env) (fuel : Nat) (s : Store) (recs : List Rec)
    (m : Nat) (opened : Nat) (committed : List Nat) : BulkOut :=
  match fuel with
  | 0 => ⟨s, opened, committed, some .outOfFuel⟩
  | fuel + 1 =>
    if env.newTxOk opened then
      let c := restoreChunk s recs m
      match c.err with
      | some e => ⟨s, opened + 1, committed, some e⟩
      | none =>
        if env.commitOk committed.length then
          if c.done then ⟨c.pending, opened + 1, committed ++ [c.n], none⟩
          else restoreLoop env fuel c.pending c.rem m (opened + 1)
            (committed ++ [c.n])
        else ⟨s, opened + 1, committed, some .commitFail⟩
    else ⟨s, opened, committed, some .newTxFail⟩

/-- `Restore(ctx, db, r, maxPerTx)`: zero `maxPerTx` means unbounded
(`math.MaxInt64`), negative is `os.ErrInvalid`; otherwise replay the
stream in chunks of at most `maxPerTx` records, one transaction per
chunk, committing a partial final chunk when end-of-stream is reached
inside it. -/
def Restore (env : Env) (s : Store) (recs : List Rec) (maxPerTx : Int) :
    BulkOut :=
  if maxPerTx < 0 then ⟨s, 0, [], some .invalid⟩
  else
    restoreLoop env (recs.length + 1) s recs
      (if maxPerTx = 0 then 2 ^ 63 - 1 else maxPerTx.toNat) 0 []

/-- The inner delete loop of one `Clear` chunk: `tx.Delete` each key in
turn, aborting the chunk on the first error. -/
def clearChunk (pending : Store) : List Key → Except Err Store
  | [] => .ok pending
  | k :: rest =>
    match storeDeleteE pending k with
    | .ok p => clearChunk p rest
    | .error e => .error e

/-- The `for done := false; !done` loop of `Clear`: each iteration
opens a transaction, ascends the whole key space of the transaction's
view, deletes up to `m` keys, stops without committing when the view
yields no keys, and otherwise commits the chunk. -/
def clearLoop (env : Env) (fuel : Nat) (s : Store) (m : Nat)
    (opened : Nat) (committed : List Nat) : BulkOut :=
  match fuel with
  | 0 => ⟨s, opened, committed, some .outOfFuel⟩
  | fuel + 1 =>
    if env.newTxOk opened then
      match clearChunk s (((ascend s [] []).map Prod.fst).take m) with
      | .error e => ⟨s, opened + 1, committed, some e⟩
      | .ok p =>
        if (((ascend s [] []).map Prod.fst).take m).length = 0 then
          ⟨s, opened + 1, committed, none⟩
        else if env.commitOk committed.length then
          clearLoop env fuel p m (opened + 1)
            (committed ++ [(((ascend s [] []).map Prod.fst).take m).length])
        else ⟨s, opened + 1, committed, some .commitFail⟩
    else ⟨s, opened, committed, some .newTxFail⟩

/-- `Clear(ctx, db, maxPerTx)`: zero `maxPerTx` means unbounded,
negative is `os.ErrInvalid`; otherwise delete everything in chunks of
at most `maxPerTx` deletions, one transaction per chunk. -/
def Clear (env : Env) (s : Store) (maxPerTx : Int) : BulkOut :=
  if maxPerTx < 0 then ⟨s, 0, [], some .invalid⟩
  else
    clearLoop env (s.length + 1) s
      (if maxPerTx = 0 then 2 ^ 63 - 1 else maxPerTx.toNat) 0 []

/-- `WithReadWriter(ctx, db, work)`: create a transaction, run `work`
on it (modelled as a function from the transaction's buffered view to
the updated view plus `work`'s reported error), arrange `Rollback` as
a safety net, and `Commit` only when `work` returned no error.
Returns the final store, the reported error, and how many times
`Commit` was attempted. -/
def WithReadWriter (env : Env) (s : Store)
    (work : Store → Store × Option Err) : Store × Option Err × Nat :=
  if env.newTxOk 0 then
    match work s with
    | (_, some e) => (s, some e, 0)
    | (p, none) =>
      if env.commitOk 0 then (p, none, 1) else (s, some .commitFail, 1)
  else (s, some .newTxFail, 0)

/-! `PrefixRange` as in `kvutil/util.go` (appending
`fmt.Sprintf("%c", dir[n-1]+1)`, which UTF-8 encodes the wrapped
byte), and the `prefixEnd`-based variant. -/

/-- UTF-8 encoding of a code point below `0x800`, as produced by Go's
`fmt.Sprintf("%c", r)`. -/
def utf8Enc (c : Nat) : List Nat :=
  if c < 128 then [c] else [192 + c / 64, 128 + c % 64]

/-- `kvutil.PrefixRange` from `kvutil/util.go`:
`end = dir[:n-1] + fmt.Sprintf("%c", dir[n-1]+1)`, where `dir[n-1]+1`
is byte arithmetic (wraps at 256) and `%c` UTF-8 encodes the result. -/
def PrefixRange (dir : List Nat) : List Nat × List Nat :=
  if dir = [] then ([], [])
  else (dir, dir.dropLast ++ utf8Enc ((dir.getLastD 0 + 1) % 256))

/-- `prefixEnd`: scan from the last byte towards the front; increment
the last byte that is not `0xff` and truncate after it; all-`0xff`
means end of the entire key space (empty string). -/
def prefixEnd : List Nat → List Nat
  | [] => []
  | b :: rest =>
    match prefixEnd rest with
    | [] => if b = 255 then [] else [b + 1]
    | e => b :: e

/-- The `PrefixRange` variant built on `prefixEnd`. -/
def PrefixRangeP (dir : List Nat) : List Nat × List Nat :=
  (dir, prefixEnd dir)

/-- One `tx.Set` as applied by a committed `Restore` chunk. -/
def applyRec (st : Store) (r : Rec) : Store := storeSet st r.key r.value

/-- `ys` is `xs` with exactly one byte changed (same length, one
position differing, the new byte a genuine byte). -/
def OneByteDiff (xs ys : List Nat) : Prop :=
  ∃ pre b b' suf, b ≠ b' ∧ b' < 256 ∧
    xs = pre ++ b :: suf ∧ ys = pre ++ b' :: suf

/-- A record is well-formed when its checksum matches its key and
value and its key is a valid non-empty byte string; `Backup` only
produces such records. -/
def goodRec (r : Rec) : Bool :=
  (r.sum == checksumKV r.key r.value) && !(r.key == []) &&
    okBytes r.key && okBytes r.value

/-! Basic facts about the key order and the reference store. -/

theorem keyLt_irrefl (k : Key) : keyLt k k = false := by
  induction k with
  | nil => rfl
  | cons a as ih => simp [keyLt, ih]

theorem keyLt_asymm : ∀ a b : Key, keyLt a b = true → keyLt b a = false := by
  intro a
  induction a with
  | nil =>
    intro b _
    cases b with
    | nil => rfl
    | cons y ys => rfl
  | cons x xs ih =>
    intro b hb
    cases b with
    | nil => simp [keyLt] at hb
    | cons y ys =>
      simp only [keyLt, Bool.or_eq_true, Bool.and_eq_true, decide_eq_true_eq,
        beq_iff_eq] at hb ⊢
      simp only [Bool.or_eq_false_iff, Bool.and_eq_false_iff,
        decide_eq_false_iff_not]
      rcases hb with h | ⟨hxy, hlt⟩
      · exact ⟨by omega, .inl (by simp; omega)⟩
      · subst hxy
        exact ⟨by omega, .inr (ih ys hlt)⟩

theorem keyLt_ne {a b : Key} (h : keyLt a b = true) : a ≠ b := by
  intro e
  subst e
  rw [keyLt_irrefl] at h
  cases h

theorem storeSet_append (k : Key) (v : Value) :
    ∀ t : Store, (∀ kv ∈ t, keyLt kv.1 k = true) →
      storeSet t k v = t ++ [(k, v)] := by
  intro t
  induction t with
  | nil => intro _; rfl
  | cons kv0 rest ih =>
    intro h
    obtain ⟨k0, v0⟩ := kv0
    have h0 : keyLt k0 k = true := h (k0, v0) (by simp)
    have hlt : keyLt k k0 = false := keyLt_asymm _ _ h0
    have hne : k ≠ k0 := fun e => keyLt_ne h0 e.symm
    simp [storeSet, hlt, hne, ih (fun kv hkv => h kv (by simp [hkv]))]

theorem pairwiseLt_iff : ∀ l : Store,
    pairwiseLt l = true ↔ l.Pairwise (fun a b => keyLt a.1 b.1 = true) := by
  intro l
  induction l with
  | nil => simp [pairwiseLt]
  | cons a rest ih =>
    simp [pairwiseLt, List.pairwise_cons, ih, List.all_eq_true]

theorem foldl_storeSet_eq :
    ∀ (s t : Store), pairwiseLt (t ++ s) = true →
      s.foldl (fun st kv => storeSet st kv.1 kv.2) t = t ++ s := by
  intro s
  induction s with
  | nil => intro t _; simp
  | cons kv rest ih =>
    intro t hp
    rw [pairwiseLt_iff] at hp
    have hsp := List.pairwise_append.mp hp
    have hset : storeSet t kv.1 kv.2 = t ++ [kv] := by
      have := storeSet_append kv.1 kv.2 t
        (fun x hx => hsp.2.2 x hx kv (by simp))
      simpa using this
    have hrest : pairwiseLt ((t ++ [kv]) ++ rest) = true := by
      rw [pairwiseLt_iff]
      have he : t ++ kv :: rest = (t ++ [kv]) ++ rest := by simp
      rw [he] at hp
      exact hp
    simp only [List.foldl_cons]
    rw [hset, ih (t ++ [kv]) hrest]
    simp

theorem storeGet_set_self (k : Key) (v : Value) (hk : k ≠ []) :
    ∀ s : Store, storeGet (storeSet s k v) k = .ok v := by
  intro s
  induction s with
  | nil => simp [storeSet, storeGet, hk]
  | cons kv0 rest ih =>
    obtain ⟨k0, v0⟩ := kv0
    by_cases h1 : keyLt k k0 = true
    · simp [storeSet, storeGet, h1, hk]
    · by_cases h2 : k = k0
      · subst h2
        simp [storeSet, storeGet, keyLt_irrefl, hk]
      · have hne : (k0 == k) = false := by
          simp [beq_eq_false_iff_ne]
          exact fun e => h2 e.symm
        simp only [storeSet, h1, if_neg h2, Bool.false_eq_true, if_false]
        simp only [storeGet, if_neg hk, List.find?_cons, hne] at ih ⊢
        exact ih

theorem storeGet_set_other (k k' : Key) (v : Value) (hne : k' ≠ k) :
    ∀ s : Store, storeGet (storeSet s k v) k' = storeGet s k' := by
  intro s
  by_cases hk' : k' = []
  · simp [storeGet, hk']
  · have hkne : (k == k') = false := by
      simp [beq_eq_false_iff_ne]
      exact fun e => hne e.symm
    induction s with
    | nil => simp [storeSet, storeGet, hk', hkne]
    | cons kv0 rest ih =>
      obtain ⟨k0, v0⟩ := kv0
      by_cases h1 : keyLt k k0 = true
      · simp [storeSet, storeGet, h1, hk', hkne]
      · by_cases h2 : k = k0
        · subst h2
          simp [storeSet, storeGet, h1, hk', hkne]
        · simp only [storeSet, h1, if_neg h2, Bool.false_eq_true, if_false]
          simp only [storeGet, if_neg hk', List.find?_cons] at ih ⊢
          cases hh : (k0 == k') with
          | true => simp [hh]
          | false => simpa [hh] using ih

theorem ascend_all (s : Store) : ascend s [] [] = s := by
  rw [ascend, List.filter_eq_self]
  intro kv _
  rfl

theorem validStore_pairwise {s : Store} (h : validStore s = true) :
    pairwiseLt s = true := by
  simp [validStore] at h
  exact h.1

theorem validStore_mem {s : Store} (h : validStore s = true) :
    ∀ kv ∈ s, kv.1 ≠ [] ∧ okBytes kv.1 = true ∧ okBytes kv.2 = true := by
  simp only [validStore, Bool.and_eq_true, List.all_eq_true] at h
  intro kv hkv
  have := h.2 kv hkv
  simp only [Bool.and_eq_true, Bool.not_eq_true', beq_eq_false_iff_ne] at this
  exact ⟨this.1.1, this.1.2, this.2⟩

theorem validStore_tail {kv : Key × Value} {rest : Store}
    (h : validStore (kv :: rest) = true) : validStore rest = true := by
  simp only [validStore, pairwiseLt, Bool.and_eq_true, List.all_eq_true] at h ⊢
  exact ⟨h.1.2, fun x hx => h.2 x (by simp [hx])⟩

theorem validStore_drop {s : Store} (h : validStore s = true) :
    ∀ n, validStore (s.drop n) = true := by
  induction s with
  | nil => intro n; simp [List.drop_nil]; exact h
  | cons kv rest ih =>
    intro n
    cases n with
    | zero => exact h
    | succ n => exact ih (validStore_tail h) n

theorem clearChunk_drop :
    ∀ s : Store, validStore s = true →
      ∀ m, clearChunk s ((s.map Prod.fst).take m) = .ok (s.drop m) := by
  intro s
  induction s with
  | nil => intro _ m; simp [clearChunk]
  | cons kv rest ih =>
    intro hv m
    obtain ⟨k, v⟩ := kv
    cases m with
    | zero => simp [clearChunk]
    | succ m =>
      have hk : k ≠ [] := (validStore_mem hv (k, v) (by simp)).1
      have hrest : ∀ x ∈ rest, ¬(x.1 = k) := by
        have hp := validStore_pairwise hv
        simp only [pairwiseLt, Bool.and_eq_true, List.all_eq_true] at hp
        intro x hx
        exact fun e => keyLt_ne (hp.1 x hx) e.symm
      have hfil : rest.filter (fun kv => !(kv.1 == k)) = rest := by
        rw [List.filter_eq_self]
        intro x hx
        simp [hrest x hx]
      simp only [List.map_cons, List.take_succ_cons, clearChunk]
      rw [storeDeleteE, if_neg hk]
      have hall : ((k, v) :: rest).all (fun kv => !(kv.1 == k)) = false := by
        simp [List.all_cons]
      rw [hall]
      simp only [Bool.false_eq_true, if_false]
      rw [storeDelete]
      simp only [List.filter_cons, beq_self_eq_true, Bool.not_true,
        Bool.false_eq_true, if_false, hfil]
      rw [ih (validStore_tail hv) m]
      simp

/-! Facts about the chunked record loop of `Restore`. -/

theorem restoreChunk_short :
    ∀ (recs : List Rec) (p : Store) (m : Nat), recs.length < m →
      (∀ r ∈ recs, r.sum = checksumKV r.key r.value ∧ r.key ≠ []) →
      restoreChunk p recs m =
        ⟨recs.foldl applyRec p, [], recs.length, true, none⟩ := by
  intro recs
  induction recs with
  | nil =>
    intro p m hm _
    have h0 : m ≠ 0 := by omega
    simp [restoreChunk, h0]
  | cons r rest ih =>
    intro p m hm hg
    have h0 : m ≠ 0 := by simp at hm; omega
    have hr := hg r (by simp)
    have hrec := ih (storeSet p r.key r.value) (m - 1)
      (by simp at hm ⊢; omega) (fun x hx => hg x (by simp [hx]))
    simp [restoreChunk, h0, hr.1, storeSetE, hr.2, hrec, applyRec]

theorem restoreChunk_long :
    ∀ (m : Nat) (recs : List Rec) (p : Store), m ≤ recs.length →
      (∀ r ∈ recs.take m, r.sum = checksumKV r.key r.value ∧ r.key ≠ []) →
      restoreChunk p recs m =
        ⟨(recs.take m).foldl applyRec p, recs.drop m, m, false, none⟩ := by
  intro m
  induction m with
  | zero => intro recs p _ _; cases recs <;> simp [restoreChunk]
  | succ m ih =>
    intro recs p hm hg
    cases recs with
    | nil => simp at hm
    | cons r rest =>
      have hr := hg r (by simp)
      have hrec := ih rest (storeSet p r.key r.value)
        (by simp at hm; omega) (fun x hx => hg x (by simp [hx]))
      simp [restoreChunk, hr.1, storeSetE, hr.2, hrec, applyRec]

theorem restoreChunk_none :
    ∀ (recs : List Rec) (p : Store) (m : Nat),
      (restoreChunk p recs m).err = none →
      (restoreChunk p recs m).pending =
          (recs.take (restoreChunk p recs m).n).foldl applyRec p ∧
        (restoreChunk p recs m).rem = recs.drop (restoreChunk p recs m).n := by
  intro recs
  induction recs with
  | nil =>
    intro p m _
    by_cases hm : m = 0 <;> simp [restoreChunk, hm]
  | cons r rest ih =>
    intro p m he
    by_cases hm : m = 0
    · simp [restoreChunk, hm]
    · by_cases hcs : r.sum = checksumKV r.key r.value
      · by_cases hk : r.key = []
        · rw [restoreChunk, if_neg hm] at he
          simp [hcs, storeSetE, hk] at he
        · rw [restoreChunk, if_neg hm] at he ⊢
          simp only [hcs, if_true, storeSetE, if_neg hk] at he ⊢
          have := ih (storeSet p r.key r.value) (m - 1) he
          simp only [List.take_succ_cons, List.foldl_cons, List.drop_succ_cons]
          exact ⟨this.1, this.2⟩
      · rw [restoreChunk, if_neg hm] at he
        simp [hcs] at he

/-- With every transaction creation and commit succeeding and a
well-formed stream, `Restore`'s loop applies every record in order,
committing `⌈len / m⌉` full chunks of `m` records followed by one
final partial chunk of `len % m` records (possibly zero) in which
end-of-stream was reached. -/
theorem restoreLoop_ok :
    ∀ (fuel : Nat) (recs : List Rec) (s : Store) (m opened : Nat)
      (committed : List Nat), 1 ≤ m → recs.length < fuel →
      (∀ r ∈ recs, r.sum = checksumKV r.key r.value ∧ r.key ≠ []) →
      restoreLoop allOk fuel s recs m opened committed =
        ⟨recs.foldl applyRec s, opened + recs.length / m + 1,
          committed ++
            (List.replicate (recs.length / m) m ++ [recs.length % m]),
          none⟩ := by
  intro fuel
  induction fuel with
  | zero => intro recs s m opened committed _ hf _; exact absurd hf (by omega)
  | succ fuel ih =>
    intro recs s m opened committed hm hf hg
    by_cases hlen : recs.length < m
    · have hq : recs.length / m = 0 := Nat.div_eq_of_lt hlen
      have hr : recs.length % m = recs.length := Nat.mod_eq_of_lt hlen
      rw [restoreLoop, restoreChunk_short recs s m hlen hg]
      simp [allOk, hq, hr]
    · push_neg at hlen
      have htake : ∀ r ∈ recs.take m,
          r.sum = checksumKV r.key r.value ∧ r.key ≠ [] :=
        fun r hr => hg r (List.mem_of_mem_take hr)
      rw [restoreLoop, restoreChunk_long m recs s hlen htake]
      have hih := ih (recs.drop m) ((recs.take m).foldl applyRec s) m
        (opened + 1) (committed ++ [m]) hm
        (by simp; omega) (fun r hr => hg r (List.mem_of_mem_drop hr))
      simp only [allOk] at hih
      simp only [allOk, if_true, Bool.false_eq_true, if_false]
      rw [hih]
      have hsub : recs.length - m + m = recs.length := Nat.sub_add_cancel hlen
      have hdiv : recs.length / m = (recs.length - m) / m + 1 := by
        conv_lhs => rw [← hsub]
        rw [Nat.add_div_right _ (by omega)]
      have hmod : recs.length % m = (recs.length - m) % m := by
        conv_lhs => rw [← hsub]
        rw [Nat.add_mod_right]
      have hst : (recs.drop m).foldl applyRec ((recs.take m).foldl applyRec s)
          = recs.foldl applyRec s := by
        rw [← List.foldl_append, List.take_append_drop]
      have hln : (recs.drop m).length = recs.length - m := by simp
      rw [hln, hst, hdiv, hmod, List.replicate_succ]
      simp [List.append_assoc]
      omega

/-- Invariant of `Restore`'s loop under an arbitrary environment: the
final store is the initial one with exactly the records of the
committed chunks applied, in stream order — the in-progress chunk's
buffered writes are rolled back on any error — and at most one
transaction beyond the committed ones is ever opened. -/
theorem restoreLoop_store :
    ∀ (fuel : Nat) (env : Env) (recs : List Rec) (s : Store) (m opened : Nat)
      (committed : List Nat),
      ∃ sizes : List Nat,
        (restoreLoop env fuel s recs m opened committed).committed =
            committed ++ sizes ∧
          (restoreLoop env fuel s recs m opened committed).store =
            (recs.take sizes.sum).foldl applyRec s ∧
          (restoreLoop env fuel s recs m opened committed).opened ≤
            opened + sizes.length + 1 := by
  intro fuel
  induction fuel with
  | zero =>
    intro env recs s m opened committed
    exact ⟨[], by simp [restoreLoop], by simp [restoreLoop],
      by simp [restoreLoop]⟩
  | succ fuel ih =>
    intro env recs s m opened committed
    rw [restoreLoop]
    by_cases htx : env.newTxOk opened = true
    · simp only [htx, if_true]
      cases hce : (restoreChunk s recs m).err with
      | some e => exact ⟨[], by simp, by simp, by simp⟩
      | none =>
        have hcn := restoreChunk_none recs s m hce
        by_cases hcm : env.commitOk committed.length = true
        · simp only [hcm, if_true]
          by_cases hdone : (restoreChunk s recs m).done = true
          · simp only [hdone, if_true]
            refine ⟨[(restoreChunk s recs m).n], by simp, ?_, by simp⟩
            simpa using hcn.1
          · simp only [Bool.not_eq_true] at hdone
            simp only [hdone, Bool.false_eq_true, if_false]
            obtain ⟨sizes, h1, h2, h3⟩ := ih env (restoreChunk s recs m).rem
              (restoreChunk s recs m).pending m (opened + 1)
              (committed ++ [(restoreChunk s recs m).n])
            refine ⟨(restoreChunk s recs m).n :: sizes, ?_, ?_, ?_⟩
            · rw [h1]; simp
            · rw [h2, hcn.1, hcn.2, ← List.foldl_append, List.sum_cons,
                List.take_add]
            · simp only [List.length_cons]
              omega
        · simp only [hcm, Bool.false_eq_true, if_false]
          exact ⟨[], by simp, by simp, by simp⟩
    · simp only [Bool.not_eq_true] at htx
      simp only [htx, Bool.false_eq_true, if_false]
      exact ⟨[], by simp, by simp, by simp⟩

/-- When the stream holds an exact multiple of `m` records and every
commit from the `q`-th on fails, the failing commit is the one of the
trailing empty chunk, so `Restore` reports the commit error. -/
theorem restoreLoop_commitFail :
    ∀ (fuel q : Nat) (recs : List Rec) (s : Store) (m opened : Nat)
      (committed : List Nat), 1 ≤ m → committed.length ≤ q →
      recs.length = (q - committed.length) * m → recs.length < fuel →
      (∀ r ∈ recs, r.sum = checksumKV r.key r.value ∧ r.key ≠ []) →
      (restoreLoop (envFailAt q) fuel s recs m opened committed).err =
        some .commitFail := by
  intro fuel
  induction fuel with
  | zero =>
    intro q recs s m opened committed _ _ _ hf _
    exact absurd hf (by omega)
  | succ fuel ih =>
    intro q recs s m opened committed hm hcq hlen hf hg
    rw [restoreLoop]
    by_cases hq : committed.length = q
    · have h0 : recs.length = 0 := by rw [hlen, hq]; simp
      have hnil : recs = [] := List.eq_nil_of_length_eq_zero h0
      subst hnil
      rw [restoreChunk_short [] s m (by simpa using hm) (by simp)]
      simp [envFailAt, hq]
    · have hlt : committed.length < q := by omega
      have hge : m ≤ recs.length := by
        rw [hlen]
        calc m = 1 * m := (one_mul m).symm
        _ ≤ (q - committed.length) * m :=
          Nat.mul_le_mul_right m (by omega)
      rw [restoreChunk_long m recs s hge
        (fun r hr => hg r (List.mem_of_mem_take hr))]
      have hsub : (q - (committed.length + 1)) * m = recs.length - m := by
        rw [hlen]
        have he : q - (committed.length + 1) = (q - committed.length) - 1 := by
          omega
        rw [he, Nat.sub_mul, one_mul]
      have := ih q (recs.drop m) ((recs.take m).foldl applyRec s) m
        (opened + 1) (committed ++ [m]) hm
        (by simp; omega)
        (by simp [hsub])
        (by simp; omega)
        (fun r hr => hg r (List.mem_of_mem_drop hr))
      simp only [envFailAt, decide_eq_true_eq] at this ⊢
      simpa [hlt] using this

/-- Invariant of `Clear`'s loop under an arbitrary environment: the
final store is the initial one with exactly the committed chunks'
deletions applied (the committed chunks delete a prefix of the sorted
key list); every committed chunk deletes between `1` and `m` keys; at
most one transaction beyond the committed chunks is opened; a
successful run (with `1 ≤ m`) empties the store; and on an already
empty store a successful run opens one transaction and commits
nothing. -/
theorem clearLoop_spec :
    ∀ (fuel : Nat) (env : Env) (s : Store) (m opened : Nat)
      (committed : List Nat), validStore s = true →
      ∃ sizes : List Nat,
        (clearLoop env fuel s m opened committed).committed =
            committed ++ sizes ∧
          (clearLoop env fuel s m opened committed).store =
            s.drop sizes.sum ∧
          sizes.sum ≤ s.length ∧
          (∀ c ∈ sizes, 1 ≤ c ∧ c ≤ m) ∧
          (clearLoop env fuel s m opened committed).opened ≤
            opened + sizes.length + 1 ∧
          (1 ≤ m → (clearLoop env fuel s m opened committed).err = none →
            (clearLoop env fuel s m opened committed).store = []) ∧
          (s = [] → (clearLoop env fuel s m opened committed).err = none →
            sizes = [] ∧
              (clearLoop env fuel s m opened committed).opened =
                opened + 1) := by
  intro fuel
  induction fuel with
  | zero =>
    intro env s m opened committed _
    exact ⟨[], by simp [clearLoop], by simp [clearLoop], by simp,
      by simp, by simp [clearLoop], by simp [clearLoop], by simp [clearLoop]⟩
  | succ fuel ih =>
    intro env s m opened committed hv
    rw [clearLoop, ascend_all, clearChunk_drop s hv m]
    by_cases htx : env.newTxOk opened = true
    · simp only [htx, if_true]
      by_cases h0 : ((s.map Prod.fst).take m).length = 0
      · rw [if_pos h0]
        refine ⟨[], by simp, by simp, by simp, by simp, by simp, ?_, by simp⟩
        intro hm _
        simp only [List.length_take, List.length_map, Nat.min_eq_zero_iff]
          at h0
        have hs0 : s.length = 0 := by omega
        simpa using List.eq_nil_of_length_eq_zero hs0
      · rw [if_neg h0]
        by_cases hcm : env.commitOk committed.length = true
        · rw [if_pos hcm]
          obtain ⟨sizes, h1, h2, h3, h4, h5, h6, _⟩ :=
            ih env (s.drop m) m (opened + 1)
              (committed ++ [((s.map Prod.fst).take m).length])
              (validStore_drop hv m)
          have hc : ((s.map Prod.fst).take m).length = min m s.length := by
            simp
          refine ⟨((s.map Prod.fst).take m).length :: sizes, ?_, ?_, ?_, ?_,
            ?_, ?_, ?_⟩
          · rw [h1]; simp
          · rw [h2, List.drop_drop, List.sum_cons]
            by_cases hms : m ≤ s.length
            · rw [hc, Nat.min_eq_left hms]
            · have hlen : (s.drop m).length = s.length - m := by simp
              have hz : sizes.sum = 0 := by
                have := h3
                rw [hlen] at this
                omega
              rw [hz, hc, Nat.min_eq_right (by omega)]
              rw [List.drop_eq_nil_of_le (by omega),
                List.drop_eq_nil_of_le (by omega)]
          · have hlen : (s.drop m).length = s.length - m := by simp
            rw [hlen] at h3
            rw [List.sum_cons, hc]
            omega
          · intro c hcm2
            rcases List.mem_cons.mp hcm2 with he | hmem
            · subst he
              exact ⟨by omega, by rw [hc]; exact Nat.min_le_left m s.length⟩
            · exact h4 c hmem
          · simp only [List.length_cons]
            omega
          · exact h6
          · intro hs
            subst hs
            simp at h0
        · rw [if_neg hcm]
          exact ⟨[], by simp, by simp, by simp, by simp, by simp, by simp,
            by simp⟩
    · simp only [Bool.not_eq_true] at htx
      simp only [htx, Bool.false_eq_true, if_false]
      exact ⟨[], by simp, by simp, by simp, by simp, by simp, by simp,
        by simp⟩

/-! The crc64-ISO checksum detects every single-byte change: the
high bytes of the 256 table entries are pairwise distinct (checked
against the explicit inverse table), which makes each byte step of
`update` injective in the running state and sensitive to the byte. -/

set_option maxRecDepth 8192

theorem crcTab_high_inv :
    ∀ i, i < 256 → crcTabHighInv.getD (crcTab i / 2 ^ 56) 0 = i := by
  decide

theorem crcTab_lt : ∀ i, i < 256 → crcTab i < 2 ^ 64 := by decide

theorem crcTab_high_ne {i j : Nat} (hi : i < 256) (hj : j < 256)
    (hne : i ≠ j) : crcTab i / 2 ^ 56 ≠ crcTab j / 2 ^ 56 := by
  intro he
  apply hne
  have h1 := crcTab_high_inv i hi
  have h2 := crcTab_high_inv j hj
  rw [← h1, ← h2, he]

theorem crcTab_ne {i j : Nat} (hi : i < 256) (hj : j < 256) (hne : i ≠ j) :
    crcTab i ≠ crcTab j := fun he => crcTab_high_ne hi hj hne (by rw [he])

theorem xor_right_cancel {a b c : Nat} (h : a ^^^ c = b ^^^ c) : a = b := by
  have := congrArg (· ^^^ c) h
  simpa [Nat.xor_assoc] using this

theorem xor_left_cancel {a b c : Nat} (h : a ^^^ b = a ^^^ c) : b = c := by
  have := congrArg (a ^^^ ·) h
  simpa [← Nat.xor_assoc] using this

theorem xor_div_pow (a b i : Nat) :
    (a ^^^ b) / 2 ^ i = a / 2 ^ i ^^^ b / 2 ^ i := by
  rw [← Nat.shiftRight_eq_div_pow, ← Nat.shiftRight_eq_div_pow,
    ← Nat.shiftRight_eq_div_pow]
  apply Nat.eq_of_testBit_eq
  intro j
  simp [Nat.testBit_shiftRight, Nat.testBit_xor]

theorem crcIdx_lt (c b : Nat) (hb : b < 256) : (c % 256) ^^^ b < 256 := by
  have h1 : c % 256 < 2 ^ 8 := Nat.mod_lt c (by omega)
  have h2 : b < 2 ^ 8 := hb
  exact Nat.xor_lt_two_pow h1 h2

theorem crcStep_lt {c b : Nat} (hc : c < 2 ^ 64) (hb : b < 256) :
    crcStep c b < 2 ^ 64 := by
  rw [crcStep]
  exact Nat.xor_lt_two_pow (crcTab_lt _ (crcIdx_lt c b hb))
    (by have := Nat.div_le_self c 256; omega)

theorem crcStep_inj {c1 c2 b : Nat} (hb : b < 256) (h1 : c1 < 2 ^ 64)
    (h2 : c2 < 2 ^ 64) (he : crcStep c1 b = crcStep c2 b) : c1 = c2 := by
  rw [crcStep, crcStep] at he
  by_cases hi : (c1 % 256) ^^^ b = (c2 % 256) ^^^ b
  · have hmod : c1 % 256 = c2 % 256 := xor_right_cancel hi
    rw [hi] at he
    have hdiv : c1 / 256 = c2 / 256 := xor_left_cancel he
    have e1 := Nat.div_add_mod c1 256
    have e2 := Nat.div_add_mod c2 256
    omega
  · exfalso
    have := congrArg (· / 2 ^ 56) he
    simp only [xor_div_pow] at this
    have hz1 : c1 / 256 / 2 ^ 56 = 0 := by
      rw [Nat.div_div_eq_div_mul]
      exact Nat.div_eq_of_lt (by norm_num at h1 ⊢; omega)
    have hz2 : c2 / 256 / 2 ^ 56 = 0 := by
      rw [Nat.div_div_eq_div_mul]
      exact Nat.div_eq_of_lt (by norm_num at h2 ⊢; omega)
    rw [hz1, hz2] at this
    simp only [Nat.xor_zero] at this
    exact crcTab_high_ne (crcIdx_lt c1 b hb) (crcIdx_lt c2 b hb) hi this

theorem crcStep_byte_ne {c b1 b2 : Nat} (hb1 : b1 < 256) (hb2 : b2 < 256)
    (hne : b1 ≠ b2) : crcStep c b1 ≠ crcStep c b2 := by
  intro he
  rw [crcStep, crcStep] at he
  have hi : (c % 256) ^^^ b1 ≠ (c % 256) ^^^ b2 :=
    fun h => hne (xor_left_cancel h)
  exact crcTab_ne (crcIdx_lt c b1 hb1) (crcIdx_lt c b2 hb2) hi
    (xor_right_cancel he)

theorem foldl_crcStep_lt :
    ∀ (l : List Nat) (c : Nat), c < 2 ^ 64 → (∀ x ∈ l, x < 256) →
      l.foldl crcStep c < 2 ^ 64 := by
  intro l
  induction l with
  | nil => intro c hc _; exact hc
  | cons b rest ih =>
    intro c hc hl
    exact ih (crcStep c b) (crcStep_lt hc (hl b (by simp)))
      (fun x hx => hl x (by simp [hx]))

theorem foldl_crcStep_ne :
    ∀ (l : List Nat) (c1 c2 : Nat), c1 ≠ c2 → c1 < 2 ^ 64 → c2 < 2 ^ 64 →
      (∀ x ∈ l, x < 256) → l.foldl crcStep c1 ≠ l.foldl crcStep c2 := by
  intro l
  induction l with
  | nil => intro c1 c2 hne _ _ _; exact hne
  | cons b rest ih =>
    intro c1 c2 hne h1 h2 hl
    have hb : b < 256 := hl b (by simp)
    exact ih (crcStep c1 b) (crcStep c2 b)
      (fun he => hne (crcStep_inj hb h1 h2 he))
      (crcStep_lt h1 hb) (crcStep_lt h2 hb)
      (fun x hx => hl x (by simp [hx]))

theorem not64_lt {x : Nat} (hx : x < 2 ^ 64) : not64 x < 2 ^ 64 :=
  Nat.xor_lt_two_pow hx (by rw [mask64]; omega)

theorem not64_not64 (x : Nat) : not64 (not64 x) = x := by
  rw [not64, not64, Nat.xor_cancel_right]

theorem not64_inj {a b : Nat} (h : not64 a = not64 b) : a = b :=
  xor_right_cancel h

theorem checksumKV_eq (k : Key) (v : Value) :
    checksumKV k v = not64 ((k ++ v).foldl crcStep (not64 0)) := by
  rw [checksumKV, crcUpdate, crcUpdate, not64_not64, List.foldl_append]

/-- Core detection property: two byte strings that differ in exactly
one byte position have different crc64-ISO checksums. -/
theorem crc_oneByte_ne (pre suf : List Nat) (b b' : Nat) (hne : b ≠ b')
    (hb : b < 256) (hb' : b' < 256) (hpre : ∀ x ∈ pre, x < 256)
    (hsuf : ∀ x ∈ suf, x < 256) :
    not64 ((pre ++ b :: suf).foldl crcStep (not64 0)) ≠
      not64 ((pre ++ b' :: suf).foldl crcStep (not64 0)) := by
  intro he
  have h0 : not64 0 < 2 ^ 64 := not64_lt (by omega)
  have hc : pre.foldl crcStep (not64 0) < 2 ^ 64 :=
    foldl_crcStep_lt pre (not64 0) h0 hpre
  have heq := not64_inj he
  rw [List.foldl_append, List.foldl_append] at heq
  simp only [List.foldl_cons] at heq
  exact foldl_crcStep_ne suf _ _
    (crcStep_byte_ne hb hb' hne) (crcStep_lt hc hb) (crcStep_lt hc hb')
    hsuf heq

theorem okBytes_mem {l : List Nat} (h : okBytes l = true) :
    ∀ x ∈ l, x < 256 := by
  simp only [okBytes, List.all_eq_true, decide_eq_true_eq] at h
  exact h

/-- Changing one byte of a record's key or value field changes the
record's correct checksum. -/
theorem checksumKV_tamper_ne {r r' : Rec} (hk : okBytes r.key = true)
    (hv : okBytes r.value = true)
    (hdiff : (OneByteDiff r.key r'.key ∧ r'.value = r.value) ∨
      (r'.key = r.key ∧ OneByteDiff r.value r'.value)) :
    checksumKV r.key r.value ≠ checksumKV r'.key r'.value := by
  rw [checksumKV_eq, checksumKV_eq]
  rcases hdiff with ⟨⟨pre, b, b', suf, hbne, hb', h1, h2⟩, hval⟩ |
    ⟨hkey, ⟨pre, b, b', suf, hbne, hb', h1, h2⟩⟩
  · rw [h1, h2, hval]
    have hb : b < 256 := okBytes_mem hk b (by rw [h1]; simp)
    have e1 : (pre ++ b :: suf) ++ r.value = pre ++ b :: (suf ++ r.value) :=
      by simp
    have e2 : (pre ++ b' :: suf) ++ r.value = pre ++ b' :: (suf ++ r.value) :=
      by simp
    rw [e1, e2]
    apply crc_oneByte_ne pre (suf ++ r.value) b b' hbne hb hb'
    · intro x hx
      exact okBytes_mem hk x (by rw [h1]; simp [hx])
    · intro x hx
      rcases List.mem_append.mp hx with hx | hx
      · exact okBytes_mem hk x (by rw [h1]; simp [hx])
      · exact okBytes_mem hv x hx
  · rw [h1, h2, hkey]
    have hb : b < 256 := okBytes_mem hv b (by rw [h1]; simp)
    have e1 : r.key ++ (pre ++ b :: suf) = (r.key ++ pre) ++ b :: suf :=
      by simp
    have e2 : r.key ++ (pre ++ b' :: suf) = (r.key ++ pre) ++ b' :: suf :=
      by simp
    rw [e1, e2]
    apply crc_oneByte_ne (r.key ++ pre) suf b b' hbne hb hb'
    · intro x hx
      rcases List.mem_append.mp hx with hx | hx
      · exact okBytes_mem hk x hx
      · exact okBytes_mem hv x (by rw [h1]; simp [hx])
    · intro x hx
      exact okBytes_mem hv x (by rw [h1]; simp [hx])

/-! Facts about `ValidateBackup` and `Backup`. -/

theorem validateCount_good :
    ∀ recs : List Rec, (∀ r ∈ recs, r.sum = checksumKV r.key r.value) →
      validateCount recs = (recs.length, none) := by
  intro recs
  induction recs with
  | nil => intro _; rfl
  | cons r rest ih =>
    intro hg
    have hr := hg r (by simp)
    simp [validateCount, hr, ih (fun x hx => hg x (by simp [hx]))]

theorem validateCount_tampered :
    ∀ (recs : List Rec) (j : Nat) (r' : Rec), j < recs.length →
      (∀ r ∈ recs, r.sum = checksumKV r.key r.value) →
      r'.sum ≠ checksumKV r'.key r'.value →
      validateCount (recs.set j r') = (j, some .checksum) := by
  intro recs
  induction recs with
  | nil => intro j r' hj _ _; simp at hj
  | cons r rest ih =>
    intro j r' hj hg hbad
    cases j with
    | zero =>
      simp only [List.set_cons_zero, validateCount]
      simp [hbad]
    | succ j =>
      have hr := hg r (by simp)
      simp only [List.set_cons_succ, validateCount]
      rw [ih j r' (by simpa using hj) (fun x hx => hg x (by simp [hx])) hbad]
      simp [hr]

theorem backup_eq_map (s : Store) :
    Backup s = s.map (fun kv => mkRec kv.1 kv.2) := by
  rw [Backup, ascend_all]

theorem backup_good {s : Store} (hv : validStore s = true) :
    ∀ r ∈ Backup s, r.sum = checksumKV r.key r.value ∧ r.key ≠ [] ∧
      okBytes r.key = true ∧ okBytes r.value = true := by
  intro r hr
  rw [backup_eq_map] at hr
  obtain ⟨kv, hkv, he⟩ := List.mem_map.mp hr
  subst he
  have := validStore_mem hv kv hkv
  exact ⟨rfl, this.1, this.2.1, this.2.2⟩

theorem backup_foldl {s : Store} (hv : validStore s = true) :
    (Backup s).foldl applyRec [] = s := by
  rw [backup_eq_map, List.foldl_map]
  have he : (fun (st : Store) (kv : Key × Value) =>
      applyRec st (mkRec kv.1 kv.2)) =
      fun st kv => storeSet st kv.1 kv.2 := rfl
  rw [he]
  exact foldl_storeSet_eq s [] (by simpa using validStore_pairwise hv)

theorem length_le_sum :
    ∀ l : List Nat, (∀ c ∈ l, 1 ≤ c) → l.length ≤ l.sum := by
  intro l
  induction l with
  | nil => intro _; simp
  | cons c rest ih =>
    intro h
    have hc := h c (by simp)
    have := ih (fun x hx => h x (by simp [hx]))
    simp only [List.length_cons, List.sum_cons]
    omega

/-! The claims. -/

/-- C1: for every well-formed store contents `S` and every
`maxPerTx ≥ 0`, `Backup` of a store holding `S` followed by `Restore`
of the produced stream into an empty store, with all commits
succeeding, yields a store holding exactly `S` — the same key set
with byte-exact values. -/
theorem C1_backup_restore_roundtrip (s : Store) (maxPerTx : Int)
    (hv : validStore s = true) (hm : 0 ≤ maxPerTx) :
    (Restore allOk [] (Backup s) maxPerTx).store = s ∧
      (Restore allOk [] (Backup s) maxPerTx).err = none := by
  rw [Restore, if_neg (by omega)]
  have hm1 : 1 ≤ (if maxPerTx = 0 then 2 ^ 63 - 1 else maxPerTx.toNat) := by
    split
    · norm_num
    · omega
  rw [restoreLoop_ok ((Backup s).length + 1) (Backup s) [] _ 0 [] hm1
    (by omega) (fun r hr => ⟨(backup_good hv r hr).1, (backup_good hv r hr).2.1⟩)]
  simp [backup_foldl hv]

theorem C1_witness :
    (Restore allOk [] (Backup [([97], [1]), ([98], [2])]) 1).store =
        [([97], [1]), ([98], [2])] ∧
      (Restore allOk [] (Backup [([97], [1]), ([98], [2])]) 1).err = none :=
  C1_backup_restore_roundtrip [([97], [1]), ([98], [2])] 1 (by decide)
    (by decide)

/-- C4: for every well-formed backup stream and every initial store,
`Restore` with `maxPerTx = 1` and `Restore` with `maxPerTx = 0`
(unbounded, a single transaction) produce identical final store
contents, with all commits succeeding. -/
theorem C4_chunk_size_irrelevant (s : Store) (recs : List Rec)
    (hg : ∀ r ∈ recs, r.sum = checksumKV r.key r.value ∧ r.key ≠ []) :
    (Restore allOk s recs 1).store = (Restore allOk s recs 0).store ∧
      (Restore allOk s recs 1).err = none ∧
      (Restore allOk s recs 0).err = none := by
  rw [Restore, Restore, if_neg (by omega : ¬(1 : Int) < 0),
    if_neg (by omega : ¬(0 : Int) < 0), if_neg (by omega : (1 : Int) ≠ 0),
    if_pos rfl]
  simp only [Int.toNat_one]
  rw [restoreLoop_ok (recs.length + 1) recs s 1 0 [] (by omega) (by omega) hg,
    restoreLoop_ok (recs.length + 1) recs s (2 ^ 63 - 1) 0 [] (by norm_num)
      (by omega) hg]
  exact ⟨rfl, rfl, rfl⟩

theorem C4_witness :
    (Restore allOk [] [mkRec [97] [1], mkRec [98] [2]] 1).store =
        (Restore allOk [] [mkRec [97] [1], mkRec [98] [2]] 0).store ∧
      (Restore allOk [] [mkRec [97] [1], mkRec [98] [2]] 1).err = none ∧
      (Restore allOk [] [mkRec [97] [1], mkRec [98] [2]] 0).err = none :=
  C4_chunk_size_irrelevant [] [mkRec [97] [1], mkRec [98] [2]] (by decide)

/-- C3: restoring a 3-record stream into an empty store with
`maxPerTx = 2` opens and commits exactly two transactions, the first
applying 2 records and the second 1 record, and afterwards all three
keys read back their backed-up values. -/
theorem C3_three_records (r1 r2 r3 : Rec)
    (hg : ∀ r ∈ [r1, r2, r3], r.sum = checksumKV r.key r.value ∧ r.key ≠ [])
    (h12 : r1.key ≠ r2.key) (h13 : r1.key ≠ r3.key)
    (h23 : r2.key ≠ r3.key) :
    (Restore allOk [] [r1, r2, r3] 2).opened = 2 ∧
      (Restore allOk [] [r1, r2, r3] 2).committed = [2, 1] ∧
      (Restore allOk [] [r1, r2, r3] 2).err = none ∧
      storeGet (Restore allOk [] [r1, r2, r3] 2).store r1.key =
        .ok r1.value ∧
      storeGet (Restore allOk [] [r1, r2, r3] 2).store r2.key =
        .ok r2.value ∧
      storeGet (Restore allOk [] [r1, r2, r3] 2).store r3.key =
        .ok r3.value := by
  have hres : Restore allOk [] [r1, r2, r3] 2 =
      ⟨applyRec (applyRec (applyRec [] r1) r2) r3, 2, [2, 1], none⟩ := by
    rw [Restore, if_neg (by omega), if_neg (by omega : (2 : Int) ≠ 0)]
    rw [restoreLoop_ok ([r1, r2, r3].length + 1) [r1, r2, r3] []
      (2 : Int).toNat 0 [] (by decide) (by simp) hg]
    simp [applyRec, List.replicate]
  rw [hres]
  refine ⟨rfl, rfl, rfl, ?_, ?_, ?_⟩
  · simp only [List.foldl_cons, List.foldl_nil, applyRec]
    rw [storeGet_set_other r3.key r1.key r3.value h13,
      storeGet_set_other r2.key r1.key r2.value h12]
    exact storeGet_set_self r1.key r1.value (hg r1 (by simp)).2 _
  · simp only [List.foldl_cons, List.foldl_nil, applyRec]
    rw [storeGet_set_other r3.key r2.key r3.value h23]
    exact storeGet_set_self r2.key r2.value (hg r2 (by simp)).2 _
  · simp only [List.foldl_cons, List.foldl_nil, applyRec]
    exact storeGet_set_self r3.key r3.value (hg r3 (by simp)).2 _

theorem C3_witness :
    (Restore allOk [] [mkRec [97] [1], mkRec [98] [2], mkRec [99] [3]]
        2).opened = 2 ∧
      (Restore allOk [] [mkRec [97] [1], mkRec [98] [2], mkRec [99] [3]]
        2).committed = [2, 1] ∧
      (Restore allOk [] [mkRec [97] [1], mkRec [98] [2], mkRec [99] [3]]
        2).err = none ∧
      storeGet (Restore allOk [] [mkRec [97] [1], mkRec [98] [2],
        mkRec [99] [3]] 2).store [97] = .ok [1] ∧
      storeGet (Restore allOk [] [mkRec [97] [1], mkRec [98] [2],
        mkRec [99] [3]] 2).store [98] = .ok [2] ∧
      storeGet (Restore allOk [] [mkRec [97] [1], mkRec [98] [2],
        mkRec [99] [3]] 2).store [99] = .ok [3] :=
  C3_three_records (mkRec [97] [1]) (mkRec [98] [2]) (mkRec [99] [3])
    (by decide) (by decide) (by decide) (by decide)

/-- C10: when the stream's record count is an exact multiple `q` of
`maxPerTx ≥ 1` (including the empty stream, `q = 0`), `Restore` opens
and commits one additional trailing transaction with zero writes, so
`q + 1` transactions in total; a failure of that trailing empty
commit makes `Restore` report the error. -/
theorem C10_trailing_empty_chunk (s : Store) (recs : List Rec) (q : Nat)
    (maxPerTx : Int) (hm : 1 ≤ maxPerTx)
    (hlen : recs.length = q * maxPerTx.toNat)
    (hg : ∀ r ∈ recs, r.sum = checksumKV r.key r.value ∧ r.key ≠ []) :
    (Restore allOk s recs maxPerTx).committed =
        List.replicate q maxPerTx.toNat ++ [0] ∧
      (Restore allOk s recs maxPerTx).opened = q + 1 ∧
      (Restore allOk s recs maxPerTx).err = none ∧
      (Restore (envFailAt q) s recs maxPerTx).err = some .commitFail := by
  have hm1 : 1 ≤ maxPerTx.toNat := by omega
  rw [Restore, Restore, if_neg (by omega : ¬maxPerTx < 0),
    if_neg (by omega : ¬maxPerTx < 0), if_neg (by omega : maxPerTx ≠ 0)]
  rw [restoreLoop_ok (recs.length + 1) recs s maxPerTx.toNat 0 [] hm1
    (by omega) hg]
  have hq : recs.length / maxPerTx.toNat = q := by
    rw [hlen, Nat.mul_div_cancel _ (by omega)]
  have hr : recs.length % maxPerTx.toNat = 0 := by
    rw [hlen, Nat.mul_mod_left]
  refine ⟨by rw [hq, hr]; simp, by simp [hq], rfl, ?_⟩
  exact restoreLoop_commitFail (recs.length + 1) q recs s maxPerTx.toNat 0 []
    hm1 (by simp) (by simpa using hlen) (by omega) hg

theorem C10_witness :
    (Restore allOk [] [mkRec [97] [1]] 1).committed = [1, 0] ∧
      (Restore allOk [] [mkRec [97] [1]] 1).opened = 2 ∧
      (Restore allOk [] [mkRec [97] [1]] 1).err = none ∧
      (Restore (envFailAt 1) [] [mkRec [97] [1]] 1).err =
        some .commitFail := by
  have h := C10_trailing_empty_chunk [] [mkRec [97] [1]] 1 1 (by decide)
    (by decide) (by decide)
  exact ⟨h.1.trans (by decide), h.2.1, h.2.2.1, h.2.2.2⟩

/-- C2: whenever `Restore` or `Clear` returns an error, the store
afterwards equals the state before the call with exactly the chunks
whose commit succeeded applied: the in-progress chunk's buffered
writes or deletes are rolled back, no partial chunk is applied, and
no chunk beyond the failing one is attempted (at most one transaction
more than the committed chunks is ever opened). -/
theorem C2_error_leaves_committed_chunks (env : Env) (s : Store)
    (recs : List Rec) (mR mC : Int) (e1 e2 : Err)
    (hv : validStore s = true) :
    ((Restore env s recs mR).err = some e1 →
      (Restore env s recs mR).store =
          (recs.take (Restore env s recs mR).committed.sum).foldl
            applyRec s ∧
        (Restore env s recs mR).opened ≤
          (Restore env s recs mR).committed.length + 1) ∧
    ((Clear env s mC).err = some e2 →
      (Clear env s mC).store = s.drop (Clear env s mC).committed.sum ∧
        (Clear env s mC).opened ≤ (Clear env s mC).committed.length + 1) := by
  constructor
  · intro _
    rw [Restore]
    by_cases hng : mR < 0
    · rw [if_pos hng]
      simp
    · rw [if_neg hng]
      obtain ⟨sizes, h1, h2, h3⟩ := restoreLoop_store (recs.length + 1) env
        recs s (if mR = 0 then 2 ^ 63 - 1 else mR.toNat) 0 []
      rw [h1, h2]
      simpa using h3
  · intro _
    rw [Clear]
    by_cases hng : mC < 0
    · rw [if_pos hng]
      simp
    · rw [if_neg hng]
      obtain ⟨sizes, h1, h2, _, _, h5, _, _⟩ := clearLoop_spec (s.length + 1)
        env s (if mC = 0 then 2 ^ 63 - 1 else mC.toNat) 0 [] hv
      rw [h1, h2]
      simpa using h5

theorem C2_witness :
    ((Restore ⟨fun _ => true, fun _ => false⟩ [([97], [1])]
          [mkRec [98] [2]] 1).err = some Err.commitFail →
      (Restore ⟨fun _ => true, fun _ => false⟩ [([97], [1])]
          [mkRec [98] [2]] 1).store =
          ([mkRec [98] [2]].take (Restore ⟨fun _ => true, fun _ => false⟩
            [([97], [1])] [mkRec [98] [2]] 1).committed.sum).foldl
            applyRec [([97], [1])] ∧
        (Restore ⟨fun _ => true, fun _ => false⟩ [([97], [1])]
            [mkRec [98] [2]] 1).opened ≤
          (Restore ⟨fun _ => true, fun _ => false⟩ [([97], [1])]
            [mkRec [98] [2]] 1).committed.length + 1) ∧
    ((Clear ⟨fun _ => true, fun _ => false⟩ [([97], [1])] 1).err =
        some Err.commitFail →
      (Clear ⟨fun _ => true, fun _ => false⟩ [([97], [1])] 1).store =
          [([97], [1])].drop (Clear ⟨fun _ => true, fun _ => false⟩
            [([97], [1])] 1).committed.sum ∧
        (Clear ⟨fun _ => true, fun _ => false⟩ [([97], [1])] 1).opened ≤
          (Clear ⟨fun _ => true, fun _ => false⟩ [([97], [1])]
            1).committed.length + 1) :=
  C2_error_leaves_committed_chunks ⟨fun _ => true, fun _ => false⟩
    [([97], [1])] [mkRec [98] [2]] 1 1 .commitFail .commitFail (by decide)

/-- C6: a successful `Clear` leaves the store with zero keys (a
whole-key-space `Ascend` yields nothing), a chunk that finds zero
keys ends `Clear` without committing that empty chunk, and on an
already empty store `Clear` opens one transaction and commits no
chunk at all. -/
theorem C6_clear_empties_store (env : Env) (s : Store) (maxPerTx : Int)
    (hv : validStore s = true)
    (hok : (Clear env s maxPerTx).err = none) :
    (Clear env s maxPerTx).store = [] ∧
      ascend (Clear env s maxPerTx).store [] [] = [] ∧
      (∀ c ∈ (Clear env s maxPerTx).committed, 1 ≤ c) ∧
      (s = [] → (Clear env s maxPerTx).committed = [] ∧
        (Clear env s maxPerTx).opened = 1) := by
  by_cases hng : maxPerTx < 0
  · rw [Clear, if_pos hng] at hok
    cases hok
  · have hm1 : 1 ≤ (if maxPerTx = 0 then 2 ^ 63 - 1 else maxPerTx.toNat) := by
      split
      · norm_num
      · omega
    rw [Clear, if_neg hng] at hok ⊢
    obtain ⟨sizes, h1, _, _, h4, _, h6, h7⟩ := clearLoop_spec (s.length + 1)
      env s (if maxPerTx = 0 then 2 ^ 63 - 1 else maxPerTx.toNat) 0 [] hv
    have hstore := h6 hm1 hok
    refine ⟨hstore, by rw [hstore]; rfl, ?_, ?_⟩
    · rw [h1]
      simpa using fun c hc => (h4 c hc).1
    · intro hs
      obtain ⟨hsz, hop⟩ := h7 hs hok
      rw [h1, hsz]
      exact ⟨rfl, hop⟩

theorem C6_witness :
    validStore [([97], [1]), ([98], [2])] = true ∧
      (Clear allOk [([97], [1]), ([98], [2])] 1).err = none ∧
      ((Clear allOk [([97], [1]), ([98], [2])] 1).store = [] ∧
        ascend (Clear allOk [([97], [1]), ([98], [2])] 1).store [] [] = [] ∧
        (∀ c ∈ (Clear allOk [([97], [1]), ([98], [2])] 1).committed,
          1 ≤ c) ∧
        ([([97], [1]), ([98], [2])] = ([] : Store) →
          (Clear allOk [([97], [1]), ([98], [2])] 1).committed = [] ∧
            (Clear allOk [([97], [1]), ([98], [2])] 1).opened = 1)) :=
  ⟨by decide, by decide,
    C6_clear_empties_store allOk [([97], [1]), ([98], [2])] 1 (by decide)
      (by decide)⟩

/-- C8: `Clear` terminates on every finite store: with
`maxPerTx ≥ 1` every committed chunk deletes between `1` and
`maxPerTx` keys, the committed deletions never exceed the initial key
count, the remaining key count decreases by exactly the committed
deletions, and at most `s.length + 1` transactions are ever opened. -/
theorem C8_clear_terminates (env : Env) (s : Store) (maxPerTx : Int)
    (hv : validStore s = true) (hm : 1 ≤ maxPerTx) :
    (∀ c ∈ (Clear env s maxPerTx).committed,
        1 ≤ c ∧ c ≤ maxPerTx.toNat) ∧
      (Clear env s maxPerTx).committed.sum ≤ s.length ∧
      (Clear env s maxPerTx).store.length =
        s.length - (Clear env s maxPerTx).committed.sum ∧
      (Clear env s maxPerTx).opened ≤ s.length + 1 := by
  rw [Clear, if_neg (by omega), if_neg (by omega : maxPerTx ≠ 0)]
  obtain ⟨sizes, h1, h2, h3, h4, h5, _, _⟩ := clearLoop_spec (s.length + 1)
    env s maxPerTx.toNat 0 [] hv
  rw [h1, h2]
  have hlen : sizes.length ≤ sizes.sum :=
    length_le_sum sizes (fun c hc => (h4 c hc).1)
  refine ⟨by simpa using h4, by simpa using h3, by simp, ?_⟩
  omega

theorem C8_witness :
    (∀ c ∈ (Clear allOk [([97], [1]), ([98], [2]), ([99], [3])]
        2).committed, 1 ≤ c ∧ c ≤ (2 : Int).toNat) ∧
      (Clear allOk [([97], [1]), ([98], [2]), ([99], [3])]
        2).committed.sum ≤ [([97], [1]), ([98], [2]), ([99], [3])].length ∧
      (Clear allOk [([97], [1]), ([98], [2]), ([99], [3])]
          2).store.length =
        [([97], [1]), ([98], [2]), ([99], [3])].length -
          (Clear allOk [([97], [1]), ([98], [2]), ([99], [3])]
            2).committed.sum ∧
      (Clear allOk [([97], [1]), ([98], [2]), ([99], [3])] 2).opened ≤
        [([97], [1]), ([98], [2]), ([99], [3])].length + 1 :=
  C8_clear_terminates allOk [([97], [1]), ([98], [2]), ([99], [3])] 2
    (by decide) (by decide)

/-- C7: `WithReadWriter` creates a transaction, runs `work` on it and
reports exactly the first applicable error — the transaction-creation
error; else `work`'s error, in which case `Commit` is never attempted
and the rollback leaves the store unchanged; else `Commit`'s outcome,
with `Commit` attempted exactly once when `work` succeeds. -/
theorem C7_withReadWriter_precedence (env : Env) (s : Store)
    (work : Store → Store × Option Err) :
    (env.newTxOk 0 = false →
        WithReadWriter env s work = (s, some .newTxFail, 0)) ∧
      (env.newTxOk 0 = true → ∀ e, (work s).2 = some e →
        WithReadWriter env s work = (s, some e, 0)) ∧
      (env.newTxOk 0 = true → (work s).2 = none →
        (env.commitOk 0 = true →
            WithReadWriter env s work = ((work s).1, none, 1)) ∧
          (env.commitOk 0 = false →
            WithReadWriter env s work = (s, some .commitFail, 1))) := by
  refine ⟨?_, ?_, ?_⟩
  · intro htx
    rw [WithReadWriter, htx]
    simp
  · intro htx e hw
    rw [WithReadWriter, htx]
    rcases hws : work s with ⟨p, we⟩
    rw [hws] at hw
    simp at hw
    subst hw
    simp
  · intro htx hw
    rcases hws : work s with ⟨p, we⟩
    rw [hws] at hw
    simp at hw
    subst hw
    constructor
    · intro hcm
      rw [WithReadWriter, htx, hws, hcm]
      simp
    · intro hcm
      rw [WithReadWriter, htx, hws, hcm]
      simp

theorem C7_witness :
    WithReadWriter allOk [([97], [1])]
        (fun st => (storeSet st [98] [2], none)) =
      ([([97], [1]), ([98], [2])], none, 1) ∧
    WithReadWriter allOk [([97], [1])]
        (fun st => (storeSet st [98] [2], some Err.notFound)) =
      ([([97], [1])], some Err.notFound, 0) :=
  ⟨(((C7_withReadWriter_precedence allOk [([97], [1])]
        (fun st => (storeSet st [98] [2], none))).2.2 (by decide) rfl).1
      rfl).trans (by decide),
    (C7_withReadWriter_precedence allOk [([97], [1])]
        (fun st => (storeSet st [98] [2], some Err.notFound))).2.1
      (by decide) Err.notFound rfl⟩

/-- C5: `ValidateBackup` succeeds on every stream produced by
`Backup` (clean end-of-stream after validating every record, writing
to no store), and on any such stream with a single byte changed
inside one record's key or value field it fails with the checksum
error at the first diverging record, before clean end-of-stream. -/
theorem C5_validateBackup_detects_tampering (s : Store)
    (hv : validStore s = true) :
    (validateCount (Backup s) = ((Backup s).length, none) ∧
      ValidateBackup (Backup s) = none) ∧
    (∀ (j : Nat) (hj : j < (Backup s).length) (r' : Rec),
      r'.sum = ((Backup s).get ⟨j, hj⟩).sum →
      ((OneByteDiff ((Backup s).get ⟨j, hj⟩).key r'.key ∧
          r'.value = ((Backup s).get ⟨j, hj⟩).value) ∨
        (r'.key = ((Backup s).get ⟨j, hj⟩).key ∧
          OneByteDiff ((Backup s).get ⟨j, hj⟩).value r'.value)) →
      validateCount ((Backup s).set j r') = (j, some .checksum) ∧
        ValidateBackup ((Backup s).set j r') = some .checksum) := by
  have hsums : ∀ r ∈ Backup s, r.sum = checksumKV r.key r.value :=
    fun r hr => (backup_good hv r hr).1
  constructor
  · have h := validateCount_good (Backup s) hsums
    exact ⟨h, by rw [ValidateBackup, h]⟩
  · intro j hj r' hsum hdiff
    have hrmem : (Backup s).get ⟨j, hj⟩ ∈ Backup s := List.get_mem _ _ _
    have hg := backup_good hv _ hrmem
    have hbad : r'.sum ≠ checksumKV r'.key r'.value := by
      rw [hsum, hg.1]
      exact checksumKV_tamper_ne hg.2.2.1 hg.2.2.2 hdiff
    have h := validateCount_tampered (Backup s) j r' hj hsums hbad
    exact ⟨h, by rw [ValidateBackup, h]⟩

theorem C5_witness :
    validateCount (Backup [([97], [1])]) = (1, none) ∧
      validateCount ((Backup [([97], [1])]).set 0
        ⟨[98], [1], checksumKV [97] [1]⟩) = (0, some .checksum) := by
  have h := C5_validateBackup_detects_tampering [([97], [1])] (by decide)
  refine ⟨h.1.1.trans (by decide), ?_⟩
  have h2 := h.2 0 (by decide) ⟨[98], [1], checksumKV [97] [1]⟩ (by decide)
    (Or.inl ⟨⟨[], 97, 98, [], by decide, by decide, by decide, by decide⟩,
      by decide⟩)
  exact h2.1

/-! `PrefixRange` and `prefixEnd`. -/

theorem keyLt_nil_right (a : Key) : keyLt a [] = false := by
  cases a <;> rfl

theorem keyLe_nil_left (k : Key) : keyLe [] k = true := by
  cases k <;> simp [keyLe, keyLt]

theorem prefixEnd_nil_iff :
    ∀ p : Key, prefixEnd p = [] ↔ ∀ b ∈ p, b = 255 := by
  intro p
  induction p with
  | nil => simp [prefixEnd]
  | cons b rest ih =>
    rw [prefixEnd]
    cases hr : prefixEnd rest with
    | nil =>
      have hall := ih.mp hr
      by_cases hb : b = 255
      · simp only [if_pos hb]
        constructor
        · intro _ x hx
          rcases List.mem_cons.mp hx with he | hm
          · rw [he, hb]
          · exact hall x hm
        · intro _; trivial
      · simp only [if_neg hb]
        constructor
        · intro h; cases h
        · intro h
          exact absurd (h b (by simp)) hb
    | cons e es =>
      constructor
      · intro h; cases h
      · intro h
        have : prefixEnd rest = [] :=
          ih.mpr (fun x hx => h x (by simp [hx]))
        rw [hr] at this
        cases this

/-- Characterization of the `prefixEnd`-based `PrefixRange`: for a
non-empty byte-string `p`, a byte-string key `k` lies in the half-open
range `[p, prefixEnd p)` — where an empty end means "to the end of the
key space" — exactly when `p` is a byte-prefix of `k`; and the end is
empty exactly when every byte of `p` is `0xff`. -/
theorem prefixEnd_spec :
    ∀ (p k : Key), p ≠ [] → okBytes k = true →
      ((keyLe p k = true ∧
          (prefixEnd p = [] ∨ keyLt k (prefixEnd p) = true)) ↔
        hasPref p k = true) := by
  intro p
  induction p with
  | nil => intro k h; exact absurd rfl h
  | cons a as ih =>
    intro k _ hk
    cases k with
    | nil =>
      constructor
      · rintro ⟨hle, _⟩
        rw [keyLe, keyLt_nil_right] at hle
        simp at hle
      · intro hp
        rw [hasPref] at hp
        cases hp
    | cons b bs =>
      have hb : b < 256 := okBytes_mem hk b (by simp)
      have hkbs : okBytes bs = true := by
        simp only [okBytes, List.all_eq_true] at hk ⊢
        exact fun x hx => hk x (by simp [hx])
      cases has : prefixEnd as with
      | nil =>
        have haux : hasPref as bs = true ↔ keyLe as bs = true := by
          cases hcs : as with
          | nil => simp [hasPref, keyLe_nil_left]
          | cons a2 as2 =>
            rw [← hcs]
            have h2 := ih bs (by rw [hcs]; simp) hkbs
            rw [has] at h2
            simp only [true_or, and_true] at h2
            exact h2.symm
        have hpe : prefixEnd (a :: as) = if a = 255 then [] else [a + 1] :=
          by rw [prefixEnd, has]
        rw [hpe]
        by_cases ha : a = 255
        · subst ha
          rw [if_pos rfl]
          simp only [true_or, and_true]
          simp only [keyLe, keyLt, hasPref, Bool.or_eq_true,
            Bool.and_eq_true, decide_eq_true_eq, beq_iff_eq,
            List.cons.injEq]
          constructor
          · rintro ((h | ⟨he, hlt⟩) | ⟨he, heq⟩)
            · omega
            · exact ⟨he, haux.mpr (by rw [keyLe, hlt]; simp)⟩
            · subst heq
              exact ⟨he, haux.mpr (by rw [keyLe]; simp)⟩
          · rintro ⟨he, hp⟩
            have hle := haux.mp hp
            rw [keyLe, Bool.or_eq_true, beq_iff_eq] at hle
            rcases hle with hlt | heq
            · exact Or.inl (Or.inr ⟨he, hlt⟩)
            · exact Or.inr ⟨he, heq⟩
        · rw [if_neg ha]
          have hlt1 : keyLt (b :: bs) [a + 1] = (b < a + 1 : Bool) := by
            rw [keyLt, keyLt_nil_right]
            cases hba : (b == a + 1) <;> simp [hba]
          simp only [hlt1, List.cons_ne_nil, false_or]
          simp only [keyLe, keyLt, hasPref, Bool.or_eq_true,
            Bool.and_eq_true, decide_eq_true_eq, beq_iff_eq,
            List.cons.injEq]
          constructor
          · rintro ⟨(h | ⟨he, hlt⟩) | ⟨he, heq⟩, hba⟩
            · omega
            · exact ⟨he, haux.mpr (by rw [keyLe, hlt]; simp)⟩
            · subst heq
              exact ⟨he, haux.mpr (by rw [keyLe]; simp)⟩
          · rintro ⟨he, hp⟩
            have hle := haux.mp hp
            rw [keyLe, Bool.or_eq_true, beq_iff_eq] at hle
            refine ⟨?_, by omega⟩
            rcases hle with hlt | heq
            · exact Or.inl (Or.inr ⟨he, hlt⟩)
            · exact Or.inr ⟨he, heq⟩
      | cons e es =>
        have hasne : as ≠ [] := by
          intro h
          rw [h] at has
          cases has
        have h2 := ih bs hasne hkbs
        rw [has] at h2
        simp only [List.cons_ne_nil, false_or] at h2
        have hpe : prefixEnd (a :: as) = a :: e :: es := by
          rw [prefixEnd, has]
        rw [hpe]
        simp only [List.cons_ne_nil, false_or]
        simp only [keyLe, keyLt, hasPref, Bool.or_eq_true,
          Bool.and_eq_true, decide_eq_true_eq, beq_iff_eq,
          List.cons.injEq] at h2 ⊢
        constructor
        · rintro ⟨(h | ⟨he, hlt⟩) | ⟨he, heq⟩, hb2 | ⟨hb2, hlt2⟩⟩
          · omega
          · omega
          · omega
          · exact ⟨he, h2.mp ⟨Or.inl hlt, hlt2⟩⟩
          · omega
          · exact ⟨he, h2.mp ⟨Or.inr heq, hlt2⟩⟩
        · rintro ⟨he, hp⟩
          have h3 := h2.mpr hp
          refine ⟨?_, Or.inr ⟨he.symm, h3.2⟩⟩
          rcases h3.1 with hlt | heq
          · exact Or.inl (Or.inr ⟨he, hlt⟩)
          · exact Or.inr ⟨he, heq⟩

/-- C9: divergence of `kvutil/util.go`'s `PrefixRange` from the
behaviour its own test `TestEndOfKeyspacePrefixRange` and the
`prefixEnd`-based variant demand: on an all-`0xff` prefix the
returned end key must be empty (end of the key space) but the code
wraps the last byte to `0x00` and UTF-8 encodes it, and on a prefix
ending in a byte of `0x7f` or above the end key gets a two-byte UTF-8
sequence instead of the incremented byte. -/
theorem C9_prefixRange_divergence :
    PrefixRange [255] = ([255], [0]) ∧
      PrefixRangeP [255] = ([255], []) ∧
      PrefixRange [255] ≠ PrefixRangeP [255] ∧
      PrefixRange [0, 255] = ([0, 255], [0, 0]) ∧
      PrefixRangeP [0, 255] = ([0, 255], [1]) ∧
      PrefixRange [97, 127] = ([97, 127], [97, 194, 128]) ∧
      PrefixRangeP [97, 127] = ([97, 127], [97, 128]) ∧
      PrefixRange [] = ([], []) ∧
      PrefixRangeP [] = ([], []) := by
  decide

end KV
